import Mathlib

/-!
Verification development for the ponswarp signaling server
(room/peer registries, message relay, reaper, TURN credential issuer).

The Rust source is shallowly embedded: the two `DashMap`s of `AppState`
become association lists, `HashSet<String>` becomes a duplicate-free
`List String`, `Instant`/`SystemTime` become `Nat` timestamps passed as
explicit `now` parameters, and every handler returns the successor state
together with the list of `(recipient, message)` pairs it pushed onto
outbound channels (an `UnboundedSender` never blocks, so a send is just
an append to the recipient's stream).
-/

namespace PonsWarp

/-! ## Association-list model of `DashMap<String, V>` -/

/-- `DashMap::get`: first binding of the key, if any. -/
def mapLookup {α : Type} : List (String × α) → String → Option α
  | [], _ => none
  | (k', v) :: rest, k => if k' = k then some v else mapLookup rest k

/-- `Entry::or_insert_with`: keep the map if the key is bound, otherwise
append a fresh binding. -/
def orInsert {α : Type} (m : List (String × α)) (k : String) (v : α) :
    List (String × α) :=
  match mapLookup m k with
  | some _ => m
  | none => m ++ [(k, v)]

/-- In-place overwrite of the (first) binding of `k`, used for mutation
through a `RefMut` and for `DashMap::insert`. -/
def mapSet {α : Type} : List (String × α) → String → α → List (String × α)
  | [], k, v => [(k, v)]
  | (k', v') :: rest, k, v =>
    if k' = k then (k, v) :: rest else (k', v') :: mapSet rest k v

/-- `DashMap::remove`: drop every binding of the key. -/
def mapRemove {α : Type} : List (String × α) → String → List (String × α)
  | [], _ => []
  | (k', v) :: rest, k =>
    if k' = k then mapRemove rest k else (k', v) :: mapRemove rest k

/-- The keys of an association list. -/
def mapKeys {α : Type} (m : List (String × α)) : List String :=
  m.map Prod.fst

/-! ## Model of `HashSet<String>` as a duplicate-free list -/

/-- `HashSet::insert`: no-op when the element is present. -/
def hashSetInsert (users : List String) (p : String) : List String :=
  if p ∈ users then users else users ++ [p]

/-- `HashSet::remove`: the element is no longer in the set. -/
def hashSetRemove : List String → String → List String
  | [], _ => []
  | q :: rest, p => if q = p then hashSetRemove rest p else q :: hashSetRemove rest p

/-! ## `str::trim` -/

/-- Model of Rust `str::trim`: strip whitespace from both ends. -/
def rustTrim (s : String) : String :=
  String.mk (((s.data.dropWhile Char.isWhitespace).reverse.dropWhile
    Char.isWhitespace).reverse)

/-! ## Protocol messages (`src/protocol/messages.rs`; the `Manifest`,
`TransferReady` and `TransferComplete` server variants appear from their
constructor uses in `src/handlers/signaling.rs`) -/

structure IceServer where
  urls : List String
  username : Option String
  credential : Option String
  credential_type : Option String
deriving DecidableEq

structure TurnConfigData where
  ice_servers : List IceServer
  ttl : Nat
  timestamp : Nat
  room_id : String
deriving DecidableEq

inductive ServerMessage where
  | Connected (socket_id : String)
  | HeartbeatAck
  | Error (code message : String)
  | JoinedRoom (room_id socket_id : String) (user_count : Nat)
  | RoomUsers (users : List String)
  | PeerJoined (socket_id room_id : String)
  | UserLeft (socket_id : String)
  | RoomFull (room_id : String)
  | Offer (from_id sdp : String)
  | Answer (from_id sdp : String)
  | IceCandidate (from_id candidate : String)
  | Manifest (from_id manifest : String)
  | TransferReady (from_id : String)
  | TransferComplete (from_id : String)
  | TurnConfig (success : Bool) (data : Option TurnConfigData)
      (error : Option String)
  | TurnServerStatusUpdate (room_id : String) (timestamp : Nat)
deriving DecidableEq

/-! ## Configuration (`src/config.rs`) -/

structure RoomConfig where
  max_size : Nat
  timeout_ms : Nat
deriving DecidableEq

structure TurnPorts where
  udp : Nat
  tcp : Nat
  tls : Nat
deriving DecidableEq

structure TurnCfg where
  url : String
  secret : String
  realm : String
  enable_tls : Bool
  enable_udp : Bool
  enable_tcp : Bool
  ports : TurnPorts
  credential_ttl : Nat
  fallback_servers : List String
deriving DecidableEq

structure Config where
  port : Nat
  host : String
  cors_origins : List String
  room : RoomConfig
  turn : TurnCfg
  log_level : String
deriving DecidableEq

/-! ## Application state (`src/state.rs`) -/

structure PeerSession where
  id : String
  room_id : Option String
  connected_at : Nat
deriving DecidableEq

structure Room where
  id : String
  users : List String
  created_at : Nat
deriving DecidableEq

/-- `Room::new`: empty membership, creation stamped with the current time. -/
def Room.new (id : String) (now : Nat) : Room :=
  ⟨id, [], now⟩

structure AppState where
  rooms : List (String × Room)
  peers : List (String × PeerSession)
  config : Config
deriving DecidableEq

/-- `AppState::new`. -/
def AppState.new (config : Config) : AppState :=
  ⟨[], [], config⟩

/-! ## Outbound sends

A handler's sends are recorded as `(recipient, message)` pairs in the order
the source pushes them. -/

/-- Send `message` to every user in `users` that has a registered session,
in iteration order (body of `broadcast_to_room` in `src/handlers/room.rs`). -/
def sendToUsers (peers : List (String × PeerSession)) (users : List String)
    (message : ServerMessage) : List (String × ServerMessage) :=
  match users with
  | [] => []
  | p :: rest =>
    match mapLookup peers p with
    | some _ => (p, message) :: sendToUsers peers rest message
    | none => sendToUsers peers rest message

/-- Body of `broadcast_to_room_except` in `src/handlers/signaling.rs`:
skip `except`, then send to each registered session. -/
def sendToUsersExcept (peers : List (String × PeerSession))
    (users : List String) (except : String) (message : ServerMessage) :
    List (String × ServerMessage) :=
  match users with
  | [] => []
  | p :: rest =>
    if p = except then sendToUsersExcept peers rest except message
    else
      match mapLookup peers p with
      | some _ => (p, message) :: sendToUsersExcept peers rest except message
      | none => sendToUsersExcept peers rest except message

/-- `broadcast_to_room` (`src/handlers/room.rs`): look the room up and send
to every member with a registered session. -/
def broadcast_to_room (st : AppState) (room_id : String)
    (message : ServerMessage) : List (String × ServerMessage) :=
  match mapLookup st.rooms room_id with
  | some room => sendToUsers st.peers room.users message
  | none => []

/-- `broadcast_to_room_except` (`src/handlers/signaling.rs`). -/
def broadcast_to_room_except (st : AppState) (room_id except_peer_id : String)
    (message : ServerMessage) : List (String × ServerMessage) :=
  match mapLookup st.rooms room_id with
  | some room => sendToUsersExcept st.peers room.users except_peer_id message
  | none => []

/-- `send_to_peer` (`src/handlers/signaling.rs`). -/
def send_to_peer (st : AppState) (peer_id : String) (message : ServerMessage) :
    List (String × ServerMessage) :=
  match mapLookup st.peers peer_id with
  | some _ => [(peer_id, message)]
  | none => []

/-- `if let Some(session) = peers.get(p) { *session.room_id.write() = r }`. -/
def setPeerRoom (peers : List (String × PeerSession)) (p : String)
    (r : Option String) : List (String × PeerSession) :=
  match mapLookup peers p with
  | some session => mapSet peers p { session with room_id := r }
  | none => peers

/-! ## Room handlers (`src/handlers/room.rs`) -/

/-- `handle_join_room`: trim the id, get-or-create the room, capacity check
(rejecting only a non-member when full), insert the peer, record the room on
the session, message the joiner, notify prior members, and finally broadcast
the updated user list to the whole room. -/
def handle_join_room (st : AppState) (peer_id room_id0 : String) (now : Nat) :
    AppState × List (String × ServerMessage) :=
  let room_id := rustTrim room_id0
  let max_size := st.config.room.max_size
  let room := match mapLookup st.rooms room_id with
    | some r => r
    | none => Room.new room_id now
  let st1 : AppState := { st with rooms := orInsert st.rooms room_id room }
  if room.users.length ≥ max_size ∧ peer_id ∉ room.users then
    (st1, send_to_peer st1 peer_id (ServerMessage.RoomFull room_id))
  else
    let existing_users := room.users
    let users2 := hashSetInsert room.users peer_id
    let st2 : AppState :=
      { st1 with rooms := mapSet st1.rooms room_id { room with users := users2 } }
    let st3 : AppState := { st2 with peers := setPeerRoom st2.peers peer_id (some room_id) }
    let user_count := users2.length
    let joinerMsgs := match mapLookup st3.peers peer_id with
      | some _ =>
        [(peer_id, ServerMessage.RoomUsers existing_users),
         (peer_id, ServerMessage.JoinedRoom room_id peer_id user_count)]
      | none => []
    let notifyMsgs := sendToUsers st3.peers existing_users
      (ServerMessage.PeerJoined peer_id room_id)
    let finalMsgs := broadcast_to_room st3 room_id (ServerMessage.RoomUsers users2)
    (st3, joinerMsgs ++ notifyMsgs ++ finalMsgs)

/-- `leave_room_internal`: remove the peer, broadcast `UserLeft` to the
remaining members, broadcast the updated list if anyone remains, delete the
room if nobody does. -/
def leave_room_internal (st : AppState) (peer_id room_id : String) :
    AppState × List (String × ServerMessage) :=
  match mapLookup st.rooms room_id with
  | none => (st, [])
  | some room =>
    let users' := hashSetRemove room.users peer_id
    let remaining := users'.length
    let st1 : AppState :=
      { st with rooms := mapSet st.rooms room_id { room with users := users' } }
    let msgs1 := broadcast_to_room st1 room_id (ServerMessage.UserLeft peer_id)
    let msgs2 := if remaining > 0 then
        broadcast_to_room st1 room_id (ServerMessage.RoomUsers users')
      else []
    if remaining = 0 then
      ({ st1 with rooms := mapRemove st1.rooms room_id }, msgs1 ++ msgs2)
    else (st1, msgs1 ++ msgs2)

/-- `handle_leave_room`: leave the room recorded on the session, if any,
then clear the recorded room. -/
def handle_leave_room (st : AppState) (peer_id : String) :
    AppState × List (String × ServerMessage) :=
  let room_id := match mapLookup st.peers peer_id with
    | some session => session.room_id
    | none => none
  match room_id with
  | some rid =>
    let res := leave_room_internal st peer_id rid
    ({ res.1 with peers := setPeerRoom res.1.peers peer_id none }, res.2)
  | none => (st, [])

/-- `cleanup_old_rooms` retain closure: keep a room unless its age strictly
exceeds the timeout. -/
def retainFresh (now timeout_ms : Nat) :
    List (String × Room) → List (String × Room)
  | [] => []
  | (rid, room) :: rest =>
    if now - room.created_at > timeout_ms then retainFresh now timeout_ms rest
    else (rid, room) :: retainFresh now timeout_ms rest

/-- `cleanup_old_rooms` (the reaper sweep). -/
def cleanup_old_rooms (st : AppState) (now : Nat) : AppState :=
  { st with rooms := retainFresh now st.config.room.timeout_ms st.rooms }

/-! ## Connection handlers (`src/handlers/connection.rs`) -/

/-- `handle_connection`: register a fresh session (the uuid is a parameter)
and acknowledge with `Connected`. -/
def handle_connection (st : AppState) (peer_id : String) (now : Nat) :
    AppState × List (String × ServerMessage) :=
  let session : PeerSession := ⟨peer_id, none, now⟩
  ({ st with peers := mapSet st.peers peer_id session },
   [(peer_id, ServerMessage.Connected peer_id)])

/-- `handle_disconnect`: unregister, then run the leave protocol for the
recorded room, if any. -/
def handle_disconnect (st : AppState) (peer_id : String) :
    AppState × List (String × ServerMessage) :=
  match mapLookup st.peers peer_id with
  | some session =>
    let st1 : AppState := { st with peers := mapRemove st.peers peer_id }
    match session.room_id with
    | some rid => leave_room_internal st1 peer_id rid
    | none => (st1, [])
  | none => (st, [])

/-! ## Sequential operation traces -/

/-- One sequential core operation (register / join / leave / disconnect /
reaper sweep), with explicit clock readings. -/
inductive Op where
  | register (peer_id : String) (now : Nat)
  | join (peer_id room_id : String) (now : Nat)
  | leave (peer_id : String)
  | disconnect (peer_id : String)
  | reap (now : Nat)

/-- State transition of one operation (messages discarded). -/
def applyOp (st : AppState) : Op → AppState
  | Op.register p now => (handle_connection st p now).1
  | Op.join p r now => (handle_join_room st p r now).1
  | Op.leave p => (handle_leave_room st p).1
  | Op.disconnect p => (handle_disconnect st p).1
  | Op.reap now => cleanup_old_rooms st now

/-- Run a trace of operations from the freshly constructed state. -/
def runOps (config : Config) (ops : List Op) : AppState :=
  ops.foldl applyOp (AppState.new config)

/-- Bidirectional registry consistency: every session's recorded room lists
the session's identity, and every room member is a registered peer whose
session records that room. -/
def consistentB (st : AppState) : Bool :=
  st.peers.all (fun ps =>
    match ps.2.room_id with
    | none => true
    | some r =>
      match mapLookup st.rooms r with
      | some room => room.users.contains ps.1
      | none => false) &&
  st.rooms.all (fun pr =>
    pr.2.users.all (fun p =>
      match mapLookup st.peers p with
      | some s => s.room_id == some pr.1
      | none => false))

/-- Recognizer for `RoomFull` messages. -/
def isRoomFullMsg : ServerMessage → Bool
  | ServerMessage.RoomFull _ => true
  | _ => false

/-- Number of `RoomFull` sends in a message batch. -/
def countRoomFull (msgs : List (String × ServerMessage)) : Nat :=
  (msgs.filter (fun pm => isRoomFullMsg pm.2)).length

/-- Membership size of a room, if the room exists. -/
def roomSize (st : AppState) (rid : String) : Option Nat :=
  (mapLookup st.rooms rid).map (fun room => room.users.length)

/-! ## Signaling relay handlers (`src/handlers/signaling.rs`) -/

/-- `handle_offer`: targeted direct send, otherwise broadcast to the room
minus the sender. -/
def handle_offer (st : AppState) (from_peer_id room_id sdp : String)
    (target : Option String) : List (String × ServerMessage) :=
  let message := ServerMessage.Offer from_peer_id sdp
  match target with
  | some target_id => send_to_peer st target_id message
  | none => broadcast_to_room_except st room_id from_peer_id message

/-- `handle_answer`. -/
def handle_answer (st : AppState) (from_peer_id room_id sdp : String)
    (target : Option String) : List (String × ServerMessage) :=
  let message := ServerMessage.Answer from_peer_id sdp
  match target with
  | some target_id => send_to_peer st target_id message
  | none => broadcast_to_room_except st room_id from_peer_id message

/-- `handle_ice_candidate`. -/
def handle_ice_candidate (st : AppState) (from_peer_id room_id candidate : String)
    (target : Option String) : List (String × ServerMessage) :=
  let message := ServerMessage.IceCandidate from_peer_id candidate
  match target with
  | some target_id => send_to_peer st target_id message
  | none => broadcast_to_room_except st room_id from_peer_id message

/-- `handle_manifest`. -/
def handle_manifest (st : AppState) (from_peer_id room_id manifest : String)
    (target : Option String) : List (String × ServerMessage) :=
  let message := ServerMessage.Manifest from_peer_id manifest
  match target with
  | some target_id => send_to_peer st target_id message
  | none => broadcast_to_room_except st room_id from_peer_id message

/-- `handle_transfer_ready`. -/
def handle_transfer_ready (st : AppState) (from_peer_id room_id : String)
    (target : Option String) : List (String × ServerMessage) :=
  let message := ServerMessage.TransferReady from_peer_id
  match target with
  | some target_id => send_to_peer st target_id message
  | none => broadcast_to_room_except st room_id from_peer_id message

/-- `handle_transfer_complete`: the targeted branch inlines the registry
lookup and send; the broadcast branch (spawned in the source) delivers the
same batch as `broadcast_to_room_except`. -/
def handle_transfer_complete (st : AppState) (from_peer_id room_id : String)
    (target : Option String) : List (String × ServerMessage) :=
  let message := ServerMessage.TransferComplete from_peer_id
  match target with
  | some target_id =>
    match mapLookup st.peers target_id with
    | some _ => [(target_id, ServerMessage.TransferComplete from_peer_id)]
    | none => []
  | none => broadcast_to_room_except st room_id from_peer_id message

/-! ## TURN credential issuer (`src/handlers/turn.rs`)

Rust `&str` values inspected character by character (`split(':')`,
`parse::<u64>`, `format!`) are modelled as `List Char`. -/

/-- Rust `char::to_digit(10)`. -/
def decDigitVal (c : Char) : Option Nat :=
  if '0' ≤ c ∧ c ≤ '9' then some (c.toNat - '0'.toNat) else none

/-- Digit-folding loop of `u64::from_str` (value accumulation). -/
def parseDigitsAcc : List Char → Nat → Option Nat
  | [], acc => some acc
  | c :: rest, acc =>
    match decDigitVal c with
    | some d => parseDigitsAcc rest (acc * 10 + d)
    | none => none

/-- Optional leading sign accepted by `u64::from_str`. -/
def stripPlus (s : List Char) : List Char :=
  match s with
  | c :: rest => if c = '+' then rest else s
  | [] => s

/-- Model of `str::parse::<u64>`: optional `+`, at least one digit, all
digits, and the value must fit in 64 bits (overflow is a parse error). -/
def rustParseU64 (s : List Char) : Option Nat :=
  match stripPlus s with
  | [] => none
  | ds =>
    match parseDigitsAcc ds 0 with
    | some v => if v < 2 ^ 64 then some v else none
    | none => none

/-- Model of Rust `str::split(sep)` (always at least one segment). -/
def splitOnChar (sep : Char) : List Char → List (List Char)
  | [] => [[]]
  | c :: cs =>
    match splitOnChar sep cs with
    | [] => [[]]
    | g :: gs => if c = sep then [] :: g :: gs else (c :: g) :: gs

/-- `username.split(':').last()`. -/
def lastColonField (s : List Char) : Option (List Char) :=
  (splitOnChar ':' s).getLast?

/-- `validate_credentials`: parse the trailing colon-delimited field and
accept iff it is an integer strictly greater than the current time. -/
def validate_credentials (now : Nat) (username : List Char) : Bool :=
  match lastColonField username with
  | some expiry_str =>
    match rustParseU64 expiry_str with
    | some expiry_time => decide (expiry_time > now)
    | none => false
  | none => false

/-- Decimal rendering loop (model of `format!` with `{}`), least significant
digit first, with explicit fuel so the kernel can evaluate it. -/
def natToDecRev : Nat → Nat → List Char
  | 0, _ => []
  | fuel + 1, n =>
    if n < 10 then [Nat.digitChar n]
    else Nat.digitChar (n % 10) :: natToDecRev fuel (n / 10)

/-- Decimal rendering of a `u64` (model of `format!` with `{}`). -/
def natToDec (n : Nat) : List Char :=
  (natToDecRev (n + 1) n).reverse

/-- Hex rendering loop (model of `format!` with `{:x}`). -/
def natToHexRev : Nat → Nat → List Char
  | 0, _ => []
  | fuel + 1, n =>
    if n < 16 then [Nat.digitChar n]
    else Nat.digitChar (n % 16) :: natToHexRev fuel (n / 16)

/-- Hex rendering of a `u64` (model of `format!` with `{:x}`). -/
def natToHex (n : Nat) : List Char :=
  (natToHexRev (n + 1) n).reverse

/-- The credential username built by `generate_credentials`:
`user_<now>_<random hex>:<expiry>` with `expiry = now + ttl`
(the random nonce is a parameter of the embedding). -/
def generate_username (now rand ttl : Nat) : List Char :=
  let expiry_time := now + ttl
  let base_username := ("user_").data ++ natToDec now ++ (['_'] ++ natToHex rand)
  base_username ++ ([':'] ++ natToDec expiry_time)

/-- Modelled opaquely: `generate_hmac_hash` computes a base64-encoded
HMAC-SHA1 of the username keyed by the secret using external crates
(`hmac`, `sha1`, `base64`), none of which are repository code. The model
keeps only what matters here: the password is a function of the username
and the secret. No claim inspects the hash value. -/
def generate_hmac_hash (username : List Char) (secret : String) : String :=
  String.mk (("hmac-sha1:").data ++ secret.data ++ ('|' :: username))

/-- `build_ice_servers`: one authenticated TURN entry per enabled transport
and per fallback server, plus an unauthenticated STUN entry when UDP is on. -/
def build_ice_servers (config : TurnCfg) (username password : String) :
    List IceServer :=
  let turn_urls :=
    (if config.enable_udp then
      ["turn:" ++ config.url ++ ":" ++ Nat.repr config.ports.udp] else []) ++
    (if config.enable_tcp then
      ["turn:" ++ config.url ++ ":" ++ Nat.repr config.ports.tcp] else []) ++
    (if config.enable_tls then
      ["turns:" ++ config.url ++ ":" ++ Nat.repr config.ports.tls ++ "?transport=tcp"]
     else []) ++
    config.fallback_servers.map (fun fb =>
      if config.enable_tls then
        "turns:" ++ fb ++ ":" ++ Nat.repr config.ports.tls ++ "?transport=tcp"
      else "turn:" ++ fb ++ ":" ++ Nat.repr config.ports.udp)
  (turn_urls.map (fun url =>
    IceServer.mk [url] (some username) (some password) (some "password"))) ++
  (if config.enable_udp then
    [IceServer.mk ["stun:" ++ config.url ++ ":" ++ Nat.repr config.ports.udp]
      none none none]
   else [])

/-- `generate_credentials` (the random nonce is a parameter). -/
def generate_credentials (config : TurnCfg) (now rand : Nat) : List IceServer :=
  let credential_username := generate_username now rand config.credential_ttl
  let password := generate_hmac_hash credential_username config.secret
  build_ice_servers config (String.mk credential_username) password

/-- `handle_turn_config_request`: configuration error if url or secret is
missing, otherwise issue fresh credentials. Returns the messages pushed on
the requester's channel. -/
def handle_turn_config_request (st : AppState) (room_id : String)
    (now rand : Nat) : List ServerMessage :=
  let turn_config := st.config.turn
  if turn_config.url = "" ∨ turn_config.secret = "" then
    [ServerMessage.TurnConfig false none (some "TURN server not configured")]
  else
    [ServerMessage.TurnConfig true
      (some ⟨generate_credentials turn_config now rand,
        turn_config.credential_ttl, now, room_id⟩)
      none]

/-- The `RefreshTurnCredentials` arm of `handle_client_message`
(`src/main.rs`): if the current username still validates, answer
`TurnConfig{success: true, data: None, error: Some("Credentials still valid")}`,
otherwise run the `RequestTurnConfig` issuance path. -/
def refresh_turn_credentials (st : AppState) (room_id : String)
    (current_username : List Char) (now rand : Nat) : List ServerMessage :=
  if validate_credentials now current_username then
    [ServerMessage.TurnConfig true none (some "Credentials still valid")]
  else
    handle_turn_config_request st room_id now rand

/-! ## Size invariant -/

/-- Every room's membership size is bounded by the configured maximum. -/
def roomsSizedOk (st : AppState) : Prop :=
  ∀ pr ∈ st.rooms, pr.2.users.length ≤ st.config.room.max_size

/-! ## Concrete states used to instantiate the theorems -/

/-- A configuration with the default maximum room size (4) and a 1000 ms
room timeout. -/
def demoConfig : Config :=
  ⟨5502, "0.0.0.0", [], ⟨4, 1000⟩,
   ⟨"turn.example", "secret", "", false, true, true, ⟨3478, 3478, 443⟩, 3600, []⟩,
   "info"⟩

/-- The demo configuration with maximum room size 1. -/
def cfgMax1 : Config :=
  ⟨5502, "0.0.0.0", [], ⟨1, 1000⟩,
   ⟨"turn.example", "secret", "", false, true, true, ⟨3478, 3478, 443⟩, 3600, []⟩,
   "info"⟩

/-- Room `x` holds `B` (capacity 1); `A` and `B` are registered. -/
def stFull : AppState :=
  ⟨[("x", ⟨"x", ["B"], 0⟩)],
   [("A", ⟨"A", none, 0⟩), ("B", ⟨"B", some "x", 0⟩)], cfgMax1⟩

/-- Peers `A`, `B`, `C` all registered and members of room `X`. -/
def stRelay : AppState :=
  ⟨[("X", ⟨"X", ["A", "B", "C"], 0⟩)],
   [("A", ⟨"A", some "X", 0⟩), ("B", ⟨"B", some "X", 0⟩),
    ("C", ⟨"C", some "X", 0⟩)], demoConfig⟩

/-- Room `x` (created at 3) whose only member is `A`. -/
def stSolo : AppState :=
  ⟨[("x", ⟨"x", ["A"], 3⟩)], [("A", ⟨"A", some "x", 0⟩)], demoConfig⟩

/-- A registered peer `A` that is in no room. -/
def stNoRoom : AppState :=
  ⟨[], [("A", ⟨"A", none, 0⟩)], demoConfig⟩

/-- A room `a` created at time 0 under a 1000 ms timeout. -/
def stReap : AppState :=
  ⟨[("a", ⟨"a", ["P"], 0⟩)], [], demoConfig⟩

/-- Register `A`, then `A` joins room `x` at time 1. -/
def opsDemo : List Op :=
  [Op.register "A" 0, Op.join "A" "x" 1]

/-! ## Lemmas about the map and set models -/

theorem mapLookup_some_mem {α : Type} {m : List (String × α)} {k : String}
    {v : α} (h : mapLookup m k = some v) : (k, v) ∈ m := by
  induction m with
  | nil => simp [mapLookup] at h
  | cons pr rest ih =>
    obtain ⟨k', v'⟩ := pr
    rw [mapLookup] at h
    by_cases hk : k' = k
    · rw [if_pos hk] at h
      subst hk
      obtain rfl : v' = v := by injection h
      exact List.mem_cons_self _ _
    · rw [if_neg hk] at h
      exact List.mem_cons_of_mem _ (ih h)

theorem mapLookup_eq_none {α : Type} {m : List (String × α)} {k : String}
    (h : k ∉ mapKeys m) : mapLookup m k = none := by
  induction m with
  | nil => rfl
  | cons pr rest ih =>
    obtain ⟨k', v'⟩ := pr
    rw [mapKeys, List.map_cons, List.mem_cons] at h
    push_neg at h
    rw [mapLookup, if_neg (fun hh => h.1 hh.symm)]
    exact ih (by simpa [mapKeys] using h.2)

theorem orInsert_of_lookup_some {α : Type} {m : List (String × α)}
    {k : String} {v' : α} (v : α) (h : mapLookup m k = some v') :
    orInsert m k v = m := by
  rw [orInsert, h]

theorem mapLookup_append_right {α : Type} {m : List (String × α)}
    {k : String} (h : mapLookup m k = none) (l : List (String × α)) :
    mapLookup (m ++ l) k = mapLookup l k := by
  induction m with
  | nil => rfl
  | cons pr rest ih =>
    obtain ⟨k', v'⟩ := pr
    rw [mapLookup] at h
    by_cases hk : k' = k
    · rw [if_pos hk] at h; exact absurd h (by simp)
    · rw [if_neg hk] at h
      rw [List.cons_append, mapLookup, if_neg hk]
      exact ih h

theorem mapLookup_orInsert_self {α : Type} {m : List (String × α)}
    {k : String} (v : α) (h : mapLookup m k = none) :
    mapLookup (orInsert m k v) k = some v := by
  rw [orInsert, h, mapLookup_append_right h, mapLookup, if_pos rfl]

theorem mapLookup_mapSet_self {α : Type} (m : List (String × α)) (k : String)
    (v : α) : mapLookup (mapSet m k v) k = some v := by
  induction m with
  | nil => simp [mapSet, mapLookup]
  | cons pr rest ih =>
    obtain ⟨k', v'⟩ := pr
    rw [mapSet]
    by_cases hk : k' = k
    · rw [if_pos hk, mapLookup, if_pos rfl]
    · rw [if_neg hk, mapLookup, if_neg hk]
      exact ih

theorem mem_mapSet {α : Type} {m : List (String × α)} {k : String} {v : α}
    {pr : String × α} (h : pr ∈ mapSet m k v) : pr ∈ m ∨ pr = (k, v) := by
  induction m with
  | nil => simp [mapSet] at h; simp [h]
  | cons hd rest ih =>
    obtain ⟨k', v'⟩ := hd
    rw [mapSet] at h
    by_cases hk : k' = k
    · rw [if_pos hk] at h
      rcases List.mem_cons.mp h with h1 | h1
      · exact Or.inr h1
      · exact Or.inl (List.mem_cons_of_mem _ h1)
    · rw [if_neg hk] at h
      rcases List.mem_cons.mp h with h1 | h1
      · exact Or.inl (h1 ▸ List.mem_cons_self _ _)
      · rcases ih h1 with h2 | h2
        · exact Or.inl (List.mem_cons_of_mem _ h2)
        · exact Or.inr h2

theorem mem_orInsert {α : Type} {m : List (String × α)} {k : String} {v : α}
    {pr : String × α} (h : pr ∈ orInsert m k v) : pr ∈ m ∨ pr = (k, v) := by
  rw [orInsert] at h
  rcases hl : mapLookup m k with _ | v'
  · rw [hl] at h
    rcases List.mem_append.mp h with h1 | h1
    · exact Or.inl h1
    · exact Or.inr (by simpa using h1)
  · rw [hl] at h
    exact Or.inl h

theorem mapLookup_mapRemove_self {α : Type} (m : List (String × α))
    (k : String) : mapLookup (mapRemove m k) k = none := by
  induction m with
  | nil => rfl
  | cons pr rest ih =>
    obtain ⟨k', v'⟩ := pr
    rw [mapRemove]
    by_cases hk : k' = k
    · rw [if_pos hk]; exact ih
    · rw [if_neg hk, mapLookup, if_neg hk]; exact ih

theorem mem_mapRemove {α : Type} {m : List (String × α)} {k : String}
    {pr : String × α} (h : pr ∈ mapRemove m k) : pr ∈ m := by
  induction m with
  | nil => simp [mapRemove] at h
  | cons hd rest ih =>
    obtain ⟨k', v'⟩ := hd
    rw [mapRemove] at h
    by_cases hk : k' = k
    · rw [if_pos hk] at h
      exact List.mem_cons_of_mem _ (ih h)
    · rw [if_neg hk] at h
      rcases List.mem_cons.mp h with h1 | h1
      · exact h1 ▸ List.mem_cons_self _ _
      · exact List.mem_cons_of_mem _ (ih h1)

theorem mem_retainFresh {now t : Nat} {m : List (String × Room)}
    {pr : String × Room} (h : pr ∈ retainFresh now t m) : pr ∈ m := by
  induction m with
  | nil => simp [retainFresh] at h
  | cons hd rest ih =>
    obtain ⟨k', v'⟩ := hd
    rw [retainFresh] at h
    by_cases hk : now - v'.created_at > t
    · rw [if_pos hk] at h
      exact List.mem_cons_of_mem _ (ih h)
    · rw [if_neg hk] at h
      rcases List.mem_cons.mp h with h1 | h1
      · exact h1 ▸ List.mem_cons_self _ _
      · exact List.mem_cons_of_mem _ (ih h1)

theorem mem_hashSetRemove {l : List String} {p q : String} :
    q ∈ hashSetRemove l p ↔ q ∈ l ∧ q ≠ p := by
  induction l with
  | nil => simp [hashSetRemove]
  | cons a rest ih =>
    rw [hashSetRemove]
    by_cases ha : a = p
    · subst ha
      rw [if_pos rfl, ih, List.mem_cons]
      constructor
      · rintro ⟨h1, h2⟩; exact ⟨Or.inr h1, h2⟩
      · rintro ⟨h1 | h1, h2⟩
        · exact absurd h1 h2
        · exact ⟨h1, h2⟩
    · rw [if_neg ha, List.mem_cons, List.mem_cons, ih]
      constructor
      · rintro (rfl | ⟨h1, h2⟩)
        · exact ⟨Or.inl rfl, ha⟩
        · exact ⟨Or.inr h1, h2⟩
      · rintro ⟨rfl | h1, h2⟩
        · exact Or.inl rfl
        · exact Or.inr ⟨h1, h2⟩

theorem hashSetRemove_sublist (l : List String) (p : String) :
    (hashSetRemove l p).Sublist l := by
  induction l with
  | nil => simp [hashSetRemove]
  | cons a rest ih =>
    rw [hashSetRemove]
    by_cases ha : a = p
    · rw [if_pos ha]; exact ih.cons _
    · rw [if_neg ha]; exact ih.cons₂ _

theorem length_hashSetRemove_le (l : List String) (p : String) :
    (hashSetRemove l p).length ≤ l.length :=
  (hashSetRemove_sublist l p).length_le

/-! ## Lemmas about the send helpers and the leave protocol -/

theorem sendToUsers_snd {ps : List (String × PeerSession)} {us : List String}
    {m : ServerMessage} {pm : String × ServerMessage}
    (h : pm ∈ sendToUsers ps us m) : pm.2 = m := by
  induction us with
  | nil => simp [sendToUsers] at h
  | cons p rest ih =>
    rw [sendToUsers] at h
    rcases hl : mapLookup ps p with _ | s
    · rw [hl] at h; exact ih h
    · rw [hl] at h
      rcases List.mem_cons.mp h with h1 | h1
      · rw [h1]
      · exact ih h1

theorem sendToUsersExcept_eq (ps : List (String × PeerSession))
    (us : List String) (e : String) (m : ServerMessage)
    (h : ∀ p ∈ us, (mapLookup ps p).isSome = true) :
    sendToUsersExcept ps us e m =
      (hashSetRemove us e).map (fun p => (p, m)) := by
  induction us with
  | nil => rfl
  | cons p rest ih =>
    rw [sendToUsersExcept, hashSetRemove]
    by_cases hp : p = e
    · rw [if_pos hp, if_pos hp]
      exact ih (fun q hq => h q (List.mem_cons_of_mem _ hq))
    · rw [if_neg hp, if_neg hp]
      obtain ⟨s, hs⟩ := Option.isSome_iff_exists.mp (h p (List.mem_cons_self _ _))
      rw [hs, List.map_cons]
      exact congrArg _ (ih (fun q hq => h q (List.mem_cons_of_mem _ hq)))

theorem leave_room_internal_peers (st : AppState) (p r : String) :
    (leave_room_internal st p r).1.peers = st.peers := by
  cases hm : mapLookup st.rooms r with
  | none => simp [leave_room_internal, hm]
  | some room =>
    simp only [leave_room_internal, hm]
    split <;> rfl

theorem leave_room_internal_config (st : AppState) (p r : String) :
    (leave_room_internal st p r).1.config = st.config := by
  cases hm : mapLookup st.rooms r with
  | none => simp [leave_room_internal, hm]
  | some room =>
    simp only [leave_room_internal, hm]
    split <;> rfl

/-! ## Claim theorems -/

/-- Claim C2: a join arriving when the room is at or above the configured
maximum, from a peer that is not already a member, sends `RoomFull` to that
peer only and leaves the entire state (peer registry and room registry,
including the existence of the room) exactly as it was. -/
theorem C2_room_full_rejection (st : AppState) (p rid : String) (now : Nat)
    (rm : Room)
    (htrim : rustTrim rid = rid)
    (hroom : mapLookup st.rooms rid = some rm)
    (hcap : rm.users.length ≥ st.config.room.max_size)
    (hnm : p ∉ rm.users)
    (hreg : (mapLookup st.peers p).isSome = true) :
    handle_join_room st p rid now = (st, [(p, ServerMessage.RoomFull rid)]) := by
  obtain ⟨s, hs⟩ := Option.isSome_iff_exists.mp hreg
  simp only [handle_join_room, htrim, hroom]
  rw [orInsert_of_lookup_some _ hroom, if_pos ⟨hcap, hnm⟩]
  simp [send_to_peer, hs]

/-- Witness for C2: with capacity 1, room `x` already holding `B`, the
registered outsider `A` is rejected with `RoomFull` and nothing changes. -/
theorem C2_witness :
    handle_join_room stFull "A" "x" 5 = (stFull, [("A", ServerMessage.RoomFull "x")]) :=
  C2_room_full_rejection stFull "A" "x" 5 ⟨"x", ["B"], 0⟩ (by decide) (by decide)
    (by decide) (by decide) (by decide)

/-- Claim C8: leave is a no-op for an unregistered peer or a peer whose
session records no room (no state change, no messages), and leaving twice
in a row has the same effect on state as leaving once. -/
theorem C8_leave_idempotent (st : AppState) (p : String) :
    (mapLookup st.peers p = none → handle_leave_room st p = (st, []))
    ∧ (∀ s, mapLookup st.peers p = some s → s.room_id = none →
        handle_leave_room st p = (st, []))
    ∧ (handle_leave_room (handle_leave_room st p).1 p).1 =
        (handle_leave_room st p).1 := by
  refine ⟨?_, ?_, ?_⟩
  · intro h; simp [handle_leave_room, h]
  · intro s hs hnone; simp [handle_leave_room, hs, hnone]
  · cases hl : mapLookup st.peers p with
    | none =>
      have h1 : handle_leave_room st p = (st, []) := by
        simp [handle_leave_room, hl]
      simp [h1]
    | some s =>
      cases hr : s.room_id with
      | none =>
        have h1 : handle_leave_room st p = (st, []) := by
          simp [handle_leave_room, hl, hr]
        simp [h1]
      | some rid =>
        have h2 : mapLookup (handle_leave_room st p).1.peers p =
            some { s with room_id := none } := by
          simp only [handle_leave_room, hl, hr]
          show mapLookup (setPeerRoom (leave_room_internal st p rid).1.peers p none) p = _
          rw [leave_room_internal_peers, setPeerRoom, hl, mapLookup_mapSet_self]
        set X := (handle_leave_room st p).1 with hX
        simp [handle_leave_room, h2]

/-- Witness for C8: leave for an unregistered peer, and for a registered
peer that is in no room, returns the state unchanged with no messages. -/
theorem C8_witness :
    handle_leave_room (AppState.new demoConfig) "Z" = (AppState.new demoConfig, [])
    ∧ handle_leave_room stNoRoom "A" = (stNoRoom, []) :=
  ⟨(C8_leave_idempotent (AppState.new demoConfig) "Z").1 (by decide),
   (C8_leave_idempotent stNoRoom "A").2.1 ⟨"A", none, 0⟩ (by decide) (by decide)⟩

/-- Claim C9: in targeted relay (all six signaling handlers), delivery
depends only on the target's presence in the peer registry: the result is
independent of the room argument and equals a direct registry-conditional
send, so it ignores room membership and room existence entirely. -/
theorem C9_targeted_relay_ignores_room (st : AppState)
    (f r1 r2 sdp cand mf t : String) :
    (handle_offer st f r1 sdp (some t) = handle_offer st f r2 sdp (some t)
      ∧ handle_offer st f r1 sdp (some t) =
          send_to_peer st t (ServerMessage.Offer f sdp))
    ∧ (handle_answer st f r1 sdp (some t) = handle_answer st f r2 sdp (some t)
      ∧ handle_answer st f r1 sdp (some t) =
          send_to_peer st t (ServerMessage.Answer f sdp))
    ∧ (handle_ice_candidate st f r1 cand (some t) =
          handle_ice_candidate st f r2 cand (some t)
      ∧ handle_ice_candidate st f r1 cand (some t) =
          send_to_peer st t (ServerMessage.IceCandidate f cand))
    ∧ (handle_manifest st f r1 mf (some t) = handle_manifest st f r2 mf (some t)
      ∧ handle_manifest st f r1 mf (some t) =
          send_to_peer st t (ServerMessage.Manifest f mf))
    ∧ (handle_transfer_ready st f r1 (some t) = handle_transfer_ready st f r2 (some t)
      ∧ handle_transfer_ready st f r1 (some t) =
          send_to_peer st t (ServerMessage.TransferReady f))
    ∧ (handle_transfer_complete st f r1 (some t) =
          handle_transfer_complete st f r2 (some t)
      ∧ handle_transfer_complete st f r1 (some t) =
          send_to_peer st t (ServerMessage.TransferComplete f))
    ∧ (∀ msg, send_to_peer st t msg =
        match mapLookup st.peers t with
        | some _ => [(t, msg)]
        | none => []) :=
  ⟨⟨rfl, rfl⟩, ⟨rfl, rfl⟩, ⟨rfl, rfl⟩, ⟨rfl, rfl⟩, ⟨rfl, rfl⟩, ⟨rfl, rfl⟩,
   fun _ => rfl⟩

/-- Claim C10: on `RefreshTurnCredentials`, a still-valid username is
answered with `TurnConfig{success: true, data: None, error: Some("Credentials
still valid")}` and no issuance happens; only an invalid username runs the
`RequestTurnConfig` issuance path. -/
theorem C10_refresh_turn (st : AppState) (rid : String) (u : List Char)
    (now rand : Nat) :
    (validate_credentials now u = true →
      refresh_turn_credentials st rid u now rand =
        [ServerMessage.TurnConfig true none (some "Credentials still valid")])
    ∧ (validate_credentials now u = false →
      refresh_turn_credentials st rid u now rand =
        handle_turn_config_request st rid now rand) := by
  constructor <;> intro h <;> simp [refresh_turn_credentials, h]

/-- Witness for C10: a username expiring at 200 is still valid at time 100
and gets the still-valid reply; one expiring at 50 is invalid at time 100
and falls through to the issuance path. -/
theorem C10_witness :
    refresh_turn_credentials (AppState.new demoConfig) "r" (("x:200").data) 100 0 =
      [ServerMessage.TurnConfig true none (some "Credentials still valid")]
    ∧ refresh_turn_credentials (AppState.new demoConfig) "r" (("x:50").data) 100 0 =
      handle_turn_config_request (AppState.new demoConfig) "r" 100 0 :=
  ⟨(C10_refresh_turn (AppState.new demoConfig) "r" (("x:200").data) 100 0).1 (by decide),
   (C10_refresh_turn (AppState.new demoConfig) "r" (("x:50").data) 100 0).2 (by decide)⟩

theorem mapLookup_retainFresh (now t : Nat) (m : List (String × Room))
    (rid : String) (h : (mapKeys m).Nodup) :
    mapLookup (retainFresh now t m) rid =
      match mapLookup m rid with
      | some rm => if now - rm.created_at ≤ t then some rm else none
      | none => none := by
  induction m with
  | nil => rfl
  | cons pr rest ih =>
    obtain ⟨k, rm⟩ := pr
    rw [mapKeys, List.map_cons, List.nodup_cons] at h
    obtain ⟨hk, hrest⟩ := h
    rw [retainFresh, mapLookup]
    by_cases hkr : k = rid
    · subst hkr
      rw [if_pos rfl]
      by_cases hage : now - rm.created_at > t
      · rw [if_pos hage, ih hrest,
          mapLookup_eq_none (by simpa [mapKeys] using hk)]
        simp [show ¬(now - rm.created_at ≤ t) from by omega]
      · rw [if_neg hage, mapLookup, if_pos rfl]
        simp [show now - rm.created_at ≤ t from by omega]
    · rw [if_neg hkr]
      by_cases hage : now - rm.created_at > t
      · rw [if_pos hage, ih hrest]
      · rw [if_neg hage, mapLookup, if_neg hkr, ih hrest]

/-- Counterexample to claim C3 as stated: with timeout 1000, a room created
at time 0 swept at time 1000 has age equal to the timeout, yet the sweep
retains it — the code deletes only rooms whose age strictly exceeds the
timeout. -/
theorem C3_counterexample :
    1000 - (0 : Nat) ≥ stReap.config.room.timeout_ms
    ∧ mapLookup (cleanup_old_rooms stReap 1000).rooms "a" ≠ none := by
  decide

/-- Claim C3 (amended): after one reaper sweep the registry retains exactly
the rooms whose age since creation is at most the configured timeout;
rooms whose age strictly exceeds the timeout are deleted, regardless of
membership. -/
theorem C3_reaper_retains_by_age (st : AppState) (now : Nat) (rid : String)
    (h : (mapKeys st.rooms).Nodup) :
    mapLookup (cleanup_old_rooms st now).rooms rid =
      match mapLookup st.rooms rid with
      | some rm => if now - rm.created_at ≤ st.config.room.timeout_ms
          then some rm else none
      | none => none :=
  mapLookup_retainFresh now st.config.room.timeout_ms st.rooms rid h

/-- Witness for C3 (amended): the sweep at time 1000 keeps the room aged
exactly 1000 ms, and a sweep at time 1001 deletes it. -/
theorem C3_witness :
    mapLookup (cleanup_old_rooms stReap 1000).rooms "a" = some ⟨"a", ["P"], 0⟩
    ∧ mapLookup (cleanup_old_rooms stReap 1001).rooms "a" = none :=
  ⟨(C3_reaper_retains_by_age stReap 1000 "a" (by decide)).trans (by decide),
   (C3_reaper_retains_by_age stReap 1001 "a" (by decide)).trans (by decide)⟩

/-- Claim C7: when the sole member of a room leaves, the room entry is
deleted and no message is sent to anyone; a subsequent join with the same
room identity creates a fresh room whose creation timestamp is the time of
that join. -/
theorem C7_room_lifecycle (st : AppState) (p rid : String) (rm : Room)
    (htrim : rustTrim rid = rid)
    (hlook : mapLookup st.rooms rid = some rm)
    (husers : rm.users = [p]) :
    (leave_room_internal st p rid).2 = []
    ∧ mapLookup (leave_room_internal st p rid).1.rooms rid = none
    ∧ ∀ q now2,
        (mapLookup (handle_join_room (leave_room_internal st p rid).1
            q rid now2).1.rooms rid).map Room.created_at = some now2 := by
  have hrm : hashSetRemove rm.users p = [] := by
    rw [husers, hashSetRemove, if_pos rfl]; rfl
  have hst : leave_room_internal st p rid =
      ({ st with rooms := mapRemove (mapSet st.rooms rid { rm with users := [] }) rid },
        []) := by
    simp [leave_room_internal, hlook, hrm, broadcast_to_room,
      mapLookup_mapSet_self, sendToUsers]
  have hnone : mapLookup (leave_room_internal st p rid).1.rooms rid = none := by
    rw [hst]
    exact mapLookup_mapRemove_self _ _
  refine ⟨by rw [hst], hnone, ?_⟩
  intro q now2
  simp only [handle_join_room, htrim, hnone]
  split
  · rw [mapLookup_orInsert_self _ hnone]
    rfl
  · show (mapLookup (mapSet _ rid _) rid).map Room.created_at = _
    rw [mapLookup_mapSet_self]
    rfl

/-- Witness for C7: `A` is the sole member of room `x`; after `A` leaves,
no messages are sent, the room is gone, and `B` joining `x` at time 9
creates a room stamped 9. -/
theorem C7_witness :
    (leave_room_internal stSolo "A" "x").2 = []
    ∧ mapLookup (leave_room_internal stSolo "A" "x").1.rooms "x" = none
    ∧ (mapLookup (handle_join_room (leave_room_internal stSolo "A" "x").1
        "B" "x" 9).1.rooms "x").map Room.created_at = some 9 := by
  have h := C7_room_lifecycle stSolo "A" "x" ⟨"x", ["A"], 3⟩ (by decide)
    (by decide) (by decide)
  exact ⟨h.1, h.2.1, h.2.2 "B" 9⟩

/-- Claim C5: a broadcast relay (no target) delivers the message exactly
once to each registered member of the room other than the sender (the
recipient list is duplicate-free and never contains the sender); a targeted
relay delivers exactly once to the target when it is registered, to nobody
otherwise, and never surfaces an `Error` message. -/
theorem C5_relay_routing (st : AppState) (f rid sdp : String) (rm : Room)
    (hroom : mapLookup st.rooms rid = some rm)
    (hnd : rm.users.Nodup)
    (hreg : ∀ p ∈ rm.users, (mapLookup st.peers p).isSome = true) :
    (handle_offer st f rid sdp none =
        (hashSetRemove rm.users f).map (fun p => (p, ServerMessage.Offer f sdp))
      ∧ ((handle_offer st f rid sdp none).map Prod.fst).Nodup
      ∧ ∀ m, (f, m) ∉ handle_offer st f rid sdp none)
    ∧ ∀ t,
        ((mapLookup st.peers t).isSome = true →
          handle_offer st f rid sdp (some t) = [(t, ServerMessage.Offer f sdp)])
        ∧ ((mapLookup st.peers t).isSome = false →
          handle_offer st f rid sdp (some t) = [])
        ∧ ∀ q c msg,
            (q, ServerMessage.Error c msg) ∉ handle_offer st f rid sdp (some t) := by
  have hb : handle_offer st f rid sdp none =
      (hashSetRemove rm.users f).map (fun p => (p, ServerMessage.Offer f sdp)) := by
    show broadcast_to_room_except st rid f (ServerMessage.Offer f sdp) = _
    rw [broadcast_to_room_except, hroom]
    exact sendToUsersExcept_eq st.peers rm.users f _ hreg
  refine ⟨⟨hb, ?_, ?_⟩, ?_⟩
  · rw [hb]
    have hmap : ∀ l : List String,
        (l.map (fun p => (p, ServerMessage.Offer f sdp))).map Prod.fst = l := by
      intro l
      induction l with
      | nil => rfl
      | cons a r ih => simp [ih]
    rw [hmap]
    exact (hashSetRemove_sublist rm.users f).nodup hnd
  · intro m hm
    rw [hb] at hm
    obtain ⟨p, hp, hpe⟩ := List.mem_map.mp hm
    have hpf : p = f := congrArg Prod.fst hpe
    exact (mem_hashSetRemove.mp hp).2 hpf
  · intro t
    have hsend : handle_offer st f rid sdp (some t) =
        send_to_peer st t (ServerMessage.Offer f sdp) := rfl
    rcases hl : mapLookup st.peers t with _ | s
    · refine ⟨?_, ?_, ?_⟩
      · intro h; simp at h
      · intro h; rw [hsend, send_to_peer, hl]
      · intro q c msg hm
        rw [hsend, send_to_peer, hl] at hm
        simp at hm
    · refine ⟨?_, ?_, ?_⟩
      · intro h; rw [hsend, send_to_peer, hl]
      · intro h; simp at h
      · intro q c msg hm
        rw [hsend, send_to_peer, hl] at hm
        simp at hm

/-- Witness for C5: with `A`, `B`, `C` registered members of room `X`,
a broadcast `Offer` from `A` reaches `B` and `C` exactly once each and not
`A`; an `Offer` targeted at `B` reaches only `B`. -/
theorem C5_witness :
    handle_offer stRelay "A" "X" "s" none =
      [("B", ServerMessage.Offer "A" "s"), ("C", ServerMessage.Offer "A" "s")]
    ∧ handle_offer stRelay "A" "X" "s" (some "B") =
      [("B", ServerMessage.Offer "A" "s")] := by
  have h := C5_relay_routing stRelay "A" "X" "s" ⟨"X", ["A", "B", "C"], 0⟩
    (by decide) (by decide) (by decide)
  exact ⟨h.1.1.trans (by decide), (h.2 "B").1 (by decide)⟩

/-- Claim C1 is violated by the code: starting from empty registries,
register `P` and let `P` join room `a` (the registries are then
consistent); a subsequent join of `P` to a different room `b` completes
with `P` still listed in room `a` while `P`'s session records `b`, so the
bidirectional consistency is false immediately after that join completes.
Likewise, a join executed for a peer `Q` absent from the peer registry
inserts `Q` into the room's membership set, leaving a member with no
registered session. -/
theorem C1_join_breaks_bidirectional_consistency :
    consistentB (runOps demoConfig [Op.register "P" 0, Op.join "P" "a" 1]) = true
    ∧ consistentB (handle_join_room
        (runOps demoConfig [Op.register "P" 0, Op.join "P" "a" 1])
        "P" "b" 2).1 = false
    ∧ consistentB (handle_join_room (AppState.new demoConfig) "Q" "a" 0).1
        = false := by
  decide

/-! ## Lemmas about decimal rendering, parsing and field splitting (C4) -/

theorem decDigitVal_digitChar : ∀ d : Nat, d < 10 →
    decDigitVal (Nat.digitChar d) = some d := by
  decide

theorem digitChar_not_special : ∀ d : Nat, d < 16 →
    Nat.digitChar d ≠ ':' ∧ Nat.digitChar d ≠ '+' := by
  decide

theorem mem_natToDecRev : ∀ (fuel n : Nat) {c : Char},
    c ∈ natToDecRev fuel n → ∃ d, d < 10 ∧ c = Nat.digitChar d := by
  intro fuel
  induction fuel with
  | zero => intro n c h; simp [natToDecRev] at h
  | succ f ih =>
    intro n c h
    rw [natToDecRev] at h
    by_cases h10 : n < 10
    · rw [if_pos h10] at h
      simp at h
      exact ⟨n, h10, h⟩
    · rw [if_neg h10] at h
      rcases List.mem_cons.mp h with h1 | h1
      · exact ⟨n % 10, Nat.mod_lt _ (by omega), h1⟩
      · exact ih _ h1

theorem mem_natToHexRev : ∀ (fuel n : Nat) {c : Char},
    c ∈ natToHexRev fuel n → ∃ d, d < 16 ∧ c = Nat.digitChar d := by
  intro fuel
  induction fuel with
  | zero => intro n c h; simp [natToHexRev] at h
  | succ f ih =>
    intro n c h
    rw [natToHexRev] at h
    by_cases h16 : n < 16
    · rw [if_pos h16] at h
      simp at h
      exact ⟨n, h16, h⟩
    · rw [if_neg h16] at h
      rcases List.mem_cons.mp h with h1 | h1
      · exact ⟨n % 16, Nat.mod_lt _ (by omega), h1⟩
      · exact ih _ h1

theorem splitOnChar_ne_nil (sep : Char) (s : List Char) :
    splitOnChar sep s ≠ [] := by
  induction s with
  | nil => simp [splitOnChar]
  | cons c cs ih =>
    rw [splitOnChar]
    cases h : splitOnChar sep cs with
    | nil => simp
    | cons g gs => by_cases hc : c = sep <;> simp [hc]

theorem splitOnChar_of_not_mem (sep : Char) :
    ∀ s : List Char, sep ∉ s → splitOnChar sep s = [s] := by
  intro s
  induction s with
  | nil => intro _; rfl
  | cons c cs ih =>
    intro h
    have h1 : ¬ c = sep := fun hcs => h (List.mem_cons.mpr (Or.inl hcs.symm))
    have h2 : splitOnChar sep cs = [cs] := ih (fun hm => h (List.mem_cons_of_mem _ hm))
    simp [splitOnChar, h2, h1]

theorem length_splitOnChar_ge_two (sep : Char) :
    ∀ s : List Char, sep ∈ s → 2 ≤ (splitOnChar sep s).length := by
  intro s
  induction s with
  | nil => intro h; simp at h
  | cons c cs ih =>
    intro h
    rw [splitOnChar]
    cases hs : splitOnChar sep cs with
    | nil => exact absurd hs (splitOnChar_ne_nil _ _)
    | cons g gs =>
      by_cases hc : c = sep
      · simp [hc]
      · have h2 : sep ∈ cs := by
          rcases List.mem_cons.mp h with h1 | h1
          · exact absurd h1.symm hc
          · exact h1
        have h3 := ih h2
        rw [hs] at h3
        simpa [hc] using h3

theorem getLast?_splitOnChar_middle (sep : Char) :
    ∀ a b : List Char,
      (splitOnChar sep (a ++ sep :: b)).getLast? =
        (splitOnChar sep b).getLast? := by
  intro a
  induction a with
  | nil =>
    intro b
    rw [List.nil_append, splitOnChar]
    cases h : splitOnChar sep b with
    | nil => exact absurd h (splitOnChar_ne_nil sep b)
    | cons g gs => simp [h, List.getLast?_cons_cons]
  | cons c a' ih =>
    intro b
    rw [List.cons_append, splitOnChar]
    cases h : splitOnChar sep (a' ++ sep :: b) with
    | nil => exact absurd h (splitOnChar_ne_nil _ _)
    | cons g gs =>
      cases gs with
      | nil =>
        exfalso
        have h2 := length_splitOnChar_ge_two sep (a' ++ sep :: b) (by simp)
        rw [h] at h2
        simp at h2
      | cons g2 gs2 =>
        by_cases hc : c = sep
        · have hih := ih b
          rw [h] at hih
          simpa [hc, List.getLast?_cons_cons] using hih
        · have hih := ih b
          rw [h, List.getLast?_cons_cons] at hih
          simpa [hc, List.getLast?_cons_cons] using hih

theorem parseDigitsAcc_append (l1 : List Char) :
    ∀ (l2 : List Char) (acc : Nat),
      parseDigitsAcc (l1 ++ l2) acc =
        match parseDigitsAcc l1 acc with
        | some a => parseDigitsAcc l2 a
        | none => none := by
  induction l1 with
  | nil => intro l2 acc; rfl
  | cons c r ih =>
    intro l2 acc
    rw [List.cons_append]
    simp only [parseDigitsAcc]
    cases decDigitVal c with
    | none => rfl
    | some d => exact ih l2 _

theorem parse_natToDecRev : ∀ fuel n acc : Nat, n < fuel →
    parseDigitsAcc ((natToDecRev fuel n).reverse) acc =
      some (acc * 10 ^ (natToDecRev fuel n).length + n) := by
  intro fuel
  induction fuel with
  | zero => intro n acc h; exact absurd h (Nat.not_lt_zero n)
  | succ f ih =>
    intro n acc h
    rw [natToDecRev]
    by_cases h10 : n < 10
    · rw [if_pos h10]
      simp only [List.reverse_cons, List.reverse_nil, List.nil_append,
        parseDigitsAcc, decDigitVal_digitChar n h10, List.length_cons,
        List.length_nil, pow_one]
      rfl
    · rw [if_neg h10]
      have hd : n / 10 < n := Nat.div_lt_self (by omega) (by omega)
      have hf : n / 10 < f := by omega
      have hmod : n % 10 < 10 := Nat.mod_lt _ (by omega)
      rw [List.reverse_cons, parseDigitsAcc_append, ih (n / 10) acc hf]
      simp only [parseDigitsAcc, decDigitVal_digitChar _ hmod,
        List.length_cons, List.length_reverse]
      have h1 : n / 10 * 10 + n % 10 = n := by omega
      have h2 : ∀ L : Nat,
          (acc * 10 ^ L + n / 10) * 10 + n % 10 = acc * 10 ^ (L + 1) + n := by
        intro L
        calc (acc * 10 ^ L + n / 10) * 10 + n % 10
            = acc * (10 ^ L * 10) + (n / 10 * 10 + n % 10) := by ring
          _ = acc * (10 ^ L * 10) + n := by rw [h1]
          _ = acc * 10 ^ (L + 1) + n := by rw [pow_succ]
      exact congrArg some (h2 _)

theorem parse_natToDec (n : Nat) : parseDigitsAcc (natToDec n) 0 = some n := by
  rw [natToDec, parse_natToDecRev (n + 1) n 0 (Nat.lt_succ_self n)]
  simp

theorem natToDec_ne_nil (n : Nat) : natToDec n ≠ [] := by
  rw [natToDec, natToDecRev]
  split <;> simp

theorem stripPlus_natToDec (n : Nat) : stripPlus (natToDec n) = natToDec n := by
  cases hd : natToDec n with
  | nil => rfl
  | cons c cs =>
    have hc : c ∈ natToDecRev (n + 1) n := by
      rw [← List.mem_reverse]
      show c ∈ natToDec n
      rw [hd]
      exact List.mem_cons_self _ _
    obtain ⟨d, hd10, rfl⟩ := mem_natToDecRev _ _ hc
    simp [stripPlus, (digitChar_not_special d (by omega)).2]

theorem rustParseU64_natToDec (n : Nat) (h : n < 2 ^ 64) :
    rustParseU64 (natToDec n) = some n := by
  cases hd : natToDec n with
  | nil => exact absurd hd (natToDec_ne_nil n)
  | cons c cs =>
    have hp : parseDigitsAcc (c :: cs) 0 = some n := by
      rw [← hd]; exact parse_natToDec n
    have hsp : stripPlus (c :: cs) = c :: cs := by
      rw [← hd]; exact stripPlus_natToDec n
    rw [rustParseU64, hsp]
    simp only [hp]
    rw [if_pos h]

theorem lastColonField_generate_username (now rand ttl : Nat) :
    lastColonField (generate_username now rand ttl) =
      some (natToDec (now + ttl)) := by
  have hnc : ':' ∉ natToDec (now + ttl) := by
    intro hmem
    rw [natToDec, List.mem_reverse] at hmem
    obtain ⟨d, hd, hcd⟩ := mem_natToDecRev _ _ hmem
    exact (digitChar_not_special d (by omega)).1 hcd.symm
  have hform : generate_username now rand ttl =
      (("user_").data ++ natToDec now ++ (['_'] ++ natToHex rand)) ++
        (':' :: natToDec (now + ttl)) := by
    simp [generate_username]
  rw [hform, lastColonField, getLast?_splitOnChar_middle,
    splitOnChar_of_not_mem _ _ hnc]
  rfl

theorem validate_credentials_generate (now rand ttl t : Nat)
    (h64 : now + ttl < 2 ^ 64) :
    validate_credentials t (generate_username now rand ttl) =
      decide (now + ttl > t) := by
  simp only [validate_credentials, lastColonField_generate_username,
    rustParseU64_natToDec _ h64]

/-- Counterexample to claim C4 as stated: a credential generated with
ttl = 0 embeds an expiry equal to its issue time, and validation requires
the expiry to be strictly greater than the current time, so evaluated
immediately after issuance (time 1000) it is already invalid — the claim
asserts it would be valid. -/
theorem C4_counterexample :
    validate_credentials 1000 (generate_username 1000 5 0) = false := by
  decide

/-- Claim C4 (amended): for a credential generated with ttl = T (expiry
fitting in a u64), validation at the issue time succeeds whenever T > 0
(a zero ttl yields a credential already expired at issuance), validation
fails once the clock passes issue_time + T, and in general validation
parses the trailing colon-delimited field of the username and accepts iff
it parses as an integer strictly greater than the current time. -/
theorem C4_credential_round_trip (now rand ttl : Nat)
    (h64 : now + ttl < 2 ^ 64) :
    (0 < ttl → validate_credentials now (generate_username now rand ttl) = true)
    ∧ (∀ t, now + ttl < t →
        validate_credentials t (generate_username now rand ttl) = false)
    ∧ (∀ (t : Nat) (u : List Char), validate_credentials t u = true ↔
        ∃ e, (lastColonField u).bind rustParseU64 = some e ∧ t < e) := by
  refine ⟨?_, ?_, ?_⟩
  · intro h
    rw [validate_credentials_generate now rand ttl now h64]
    simp
    omega
  · intro t ht
    rw [validate_credentials_generate now rand ttl t h64]
    simp
    omega
  · intro t u
    simp only [validate_credentials]
    cases hl : lastColonField u with
    | none => simp
    | some fld =>
      cases hp : rustParseU64 fld with
      | none => simp [hp]
      | some e => simp [hp, Nat.lt_iff_add_one_le]

/-- Witness for C4: a credential issued at time 1000 with ttl 60 validates
at time 1000 and fails at time 1100. -/
theorem C4_witness :
    validate_credentials 1000 (generate_username 1000 5 60) = true
    ∧ validate_credentials 1100 (generate_username 1000 5 60) = false :=
  ⟨(C4_credential_round_trip 1000 5 60 (by decide)).1 (by decide),
   (C4_credential_round_trip 1000 5 60 (by decide)).2.1 1100 (by decide)⟩

/-! ## Preservation lemmas for the capacity invariant (C6) -/

theorem handle_join_room_config (st : AppState) (p r : String) (now : Nat) :
    (handle_join_room st p r now).1.config = st.config := by
  simp only [handle_join_room]
  split <;> rfl

theorem handle_leave_room_config (st : AppState) (p : String) :
    (handle_leave_room st p).1.config = st.config := by
  simp only [handle_leave_room]
  split
  · exact leave_room_internal_config _ _ _
  · rfl

theorem handle_disconnect_config (st : AppState) (p : String) :
    (handle_disconnect st p).1.config = st.config := by
  simp only [handle_disconnect]
  split
  · split
    · exact leave_room_internal_config _ _ _
    · rfl
  · rfl

theorem applyOp_config (st : AppState) (op : Op) :
    (applyOp st op).config = st.config := by
  cases op with
  | register p now => rfl
  | join p r now => exact handle_join_room_config st p r now
  | leave p => exact handle_leave_room_config st p
  | disconnect p => exact handle_disconnect_config st p
  | reap now => rfl

theorem room_of_lookup_sized (st : AppState) (rid : String) (now : Nat)
    (h : roomsSizedOk st) :
    (match mapLookup st.rooms rid with
     | some rm => rm
     | none => Room.new rid now).users.length ≤ st.config.room.max_size := by
  cases hl : mapLookup st.rooms rid with
  | some rm => simpa using h _ (mapLookup_some_mem hl)
  | none => simp [Room.new]

theorem join_preserves_sized (st : AppState) (p r : String) (now : Nat)
    (h : roomsSizedOk st) : roomsSizedOk (handle_join_room st p r now).1 := by
  intro pr hpr
  rw [handle_join_room_config st p r now]
  revert hpr
  simp only [handle_join_room]
  split
  · intro hpr
    rcases mem_orInsert hpr with h1 | h1
    · exact h _ h1
    · rw [h1]
      exact room_of_lookup_sized st (rustTrim r) now h
  · rename_i hguard
    intro hpr
    rcases mem_mapSet hpr with h1 | h1
    · rcases mem_orInsert h1 with h2 | h2
      · exact h _ h2
      · rw [h2]
        exact room_of_lookup_sized st (rustTrim r) now h
    · rw [h1]
      have hroom := room_of_lookup_sized st (rustTrim r) now h
      set room : Room := (match mapLookup st.rooms (rustTrim r) with
        | some rm => rm
        | none => Room.new (rustTrim r) now) with hroomdef
      show (hashSetInsert room.users p).length ≤ st.config.room.max_size
      rw [hashSetInsert]
      by_cases hp : p ∈ room.users
      · rw [if_pos hp]
        exact hroom
      · rw [if_neg hp]
        have hlen : (room.users ++ [p]).length = room.users.length + 1 := by simp
        rw [hlen]
        rcases not_and_or.mp hguard with hg | hg
        · omega
        · exact absurd (not_not.mp hg) hp

theorem leave_internal_preserves_sized (st : AppState) (p r : String)
    (h : roomsSizedOk st) : roomsSizedOk (leave_room_internal st p r).1 := by
  intro pr hpr
  rw [leave_room_internal_config st p r]
  revert hpr
  cases hl : mapLookup st.rooms r with
  | none =>
    simp only [leave_room_internal, hl]
    exact fun hpr => h _ hpr
  | some rm =>
    have hle : (hashSetRemove rm.users p).length ≤ st.config.room.max_size :=
      le_trans (length_hashSetRemove_le _ _)
        (by simpa using h _ (mapLookup_some_mem hl))
    simp only [leave_room_internal, hl]
    split
    · intro hpr
      rcases mem_mapSet (mem_mapRemove hpr) with h1 | h1
      · exact h _ h1
      · rw [h1]; exact hle
    · intro hpr
      rcases mem_mapSet hpr with h1 | h1
      · exact h _ h1
      · rw [h1]; exact hle

theorem handle_leave_preserves_sized (st : AppState) (p : String)
    (h : roomsSizedOk st) : roomsSizedOk (handle_leave_room st p).1 := by
  intro pr hpr
  rw [handle_leave_room_config st p]
  revert hpr
  simp only [handle_leave_room]
  split
  · rename_i rid heq
    intro hpr
    have h2 := leave_internal_preserves_sized st p rid h _ hpr
    rwa [leave_room_internal_config] at h2
  · exact fun hpr => h _ hpr

theorem handle_disconnect_preserves_sized (st : AppState) (p : String)
    (h : roomsSizedOk st) : roomsSizedOk (handle_disconnect st p).1 := by
  intro pr hpr
  rw [handle_disconnect_config st p]
  revert hpr
  simp only [handle_disconnect]
  split
  · rename_i s heq
    split
    · rename_i rid heq2
      intro hpr
      have h1 : roomsSizedOk ({ st with peers := mapRemove st.peers p } : AppState) :=
        fun q hq => h _ hq
      have h2 := leave_internal_preserves_sized _ p rid h1 _ hpr
      rwa [leave_room_internal_config] at h2
    · exact fun hpr => h _ hpr
  · exact fun hpr => h _ hpr

theorem applyOp_preserves_sized (st : AppState) (op : Op)
    (h : roomsSizedOk st) : roomsSizedOk (applyOp st op) := by
  cases op with
  | register p now => exact fun pr hpr => h pr hpr
  | join p r now => exact join_preserves_sized st p r now h
  | leave p => exact handle_leave_preserves_sized st p h
  | disconnect p => exact handle_disconnect_preserves_sized st p h
  | reap now => exact fun pr hpr => h pr (mem_retainFresh hpr)

theorem foldl_preserves_sized (ops : List Op) :
    ∀ st : AppState, roomsSizedOk st → roomsSizedOk (ops.foldl applyOp st) := by
  induction ops with
  | nil => exact fun st h => h
  | cons op rest ih => exact fun st h => ih _ (applyOp_preserves_sized st op h)

theorem foldl_config (ops : List Op) :
    ∀ st : AppState, (ops.foldl applyOp st).config = st.config := by
  induction ops with
  | nil => exact fun st => rfl
  | cons op rest ih =>
    intro st
    rw [List.foldl_cons, ih, applyOp_config]

/-- Claim C6: in every state reachable from the fresh state by any trace
of register / join / leave / disconnect / reaper operations, every room's
membership size is at most the configured maximum; and a join by a peer
already in the membership set sends no `RoomFull` and leaves the membership
size unchanged. -/
theorem C6_capacity_invariant (cfg : Config) (ops : List Op) (st : AppState)
    (p rid : String) (now : Nat) (rm : Room)
    (hlook : mapLookup st.rooms (rustTrim rid) = some rm)
    (hmem : p ∈ rm.users) :
    (∀ pr ∈ (runOps cfg ops).rooms, pr.2.users.length ≤ cfg.room.max_size)
    ∧ countRoomFull (handle_join_room st p rid now).2 = 0
    ∧ roomSize (handle_join_room st p rid now).1 (rustTrim rid) =
        some rm.users.length := by
  have hne : ¬(rm.users.length ≥ st.config.room.max_size ∧ p ∉ rm.users) :=
    fun hx => hx.2 hmem
  refine ⟨?_, ?_, ?_⟩
  · intro pr hpr
    have h1 := foldl_preserves_sized ops (AppState.new cfg)
      (by intro q hq; simp [AppState.new] at hq) _ hpr
    rwa [foldl_config ops (AppState.new cfg)] at h1
  · rw [countRoomFull, List.length_eq_zero, List.filter_eq_nil_iff]
    intro pm hpm
    revert hpm
    simp only [handle_join_room, hlook, orInsert_of_lookup_some _ hlook,
      if_neg hne]
    intro hpm
    rcases List.mem_append.mp hpm with hx | hx
    · rcases List.mem_append.mp hx with hy | hy
      · revert hy
        cases hz : mapLookup (setPeerRoom st.peers p (some (rustTrim rid))) p with
        | none => intro hy; simp at hy
        | some s =>
          intro hy
          simp only [List.mem_cons, List.not_mem_nil, or_false] at hy
          rcases hy with h1 | h1 <;> rw [h1] <;> simp [isRoomFullMsg]
      · rw [sendToUsers_snd hy]
        simp [isRoomFullMsg]
    · revert hx
      rw [broadcast_to_room]
      cases hz : mapLookup (mapSet st.rooms (rustTrim rid)
          { rm with users := hashSetInsert rm.users p }) (rustTrim rid) with
      | none => intro hx; simp at hx
      | some room2 =>
        intro hx
        rw [sendToUsers_snd hx]
        simp [isRoomFullMsg]
  · simp only [handle_join_room, hlook, orInsert_of_lookup_some _ hlook,
      if_neg hne]
    show (mapLookup (mapSet st.rooms (rustTrim rid)
        { rm with users := hashSetInsert rm.users p }) (rustTrim rid)).map
        (fun room => room.users.length) = some rm.users.length
    rw [mapLookup_mapSet_self]
    simp [hashSetInsert, hmem]

/-- Witness for C6: after registering `A` and joining it to room `x`, the
single reachable room holds 1 ≤ 4 members; and `A` rejoining room `x` in
`stSolo` is not rejected and leaves the membership size at 1. -/
theorem C6_witness :
    ("x", (⟨"x", ["A"], 1⟩ : Room)).2.users.length ≤ demoConfig.room.max_size
    ∧ countRoomFull (handle_join_room stSolo "A" "x" 5).2 = 0
    ∧ roomSize (handle_join_room stSolo "A" "x" 5).1 (rustTrim "x") = some 1 := by
  have h := C6_capacity_invariant demoConfig opsDemo stSolo "A" "x" 5
    ⟨"x", ["A"], 3⟩ (by decide) (by decide)
  exact ⟨h.1 _ (by decide), h.2.1, h.2.2⟩

end PonsWarp
